import Mathlib

/-!
# Verification of the codekeys Control→Command keybinding remapper

Shallow embedding of `src/main.rs`: a program that parses textual key-chord
descriptions into a modifier-bitmask + base-label representation and expands
every Control-gated binding into a disabled copy plus a Command-remapped copy.

Strings are modelled as `List Char`.  Rust's `str::to_lowercase` is modelled
as character-wise ASCII lowercasing (the program's own vocabulary — modifier
names, key labels — is ASCII).  Machine integers (`usize` bitmasks) are
modelled as `Nat` with the bitwise operators; no arithmetic here ever nears
an overflow.
-/

namespace Codekeys

/-- Constant `MODIFIER_SHIFT` from the source. -/
def MODIFIER_SHIFT : Nat := 1

/-- Constant `MODIFIER_CONTROL` from the source. -/
def MODIFIER_CONTROL : Nat := 2

/-- Constant `MODIFIER_COMMAND` from the source. -/
def MODIFIER_COMMAND : Nat := 4

/-- Constant `MODIFIER_OPTION` from the source. -/
def MODIFIER_OPTION : Nat := 8

/-- Source `struct Key { modifiers: usize, key: String }`. -/
structure Key where
  modifiers : Nat
  key : List Char
deriving DecidableEq

/-- Source `struct KeyRule { first: Key, second: Option<Key> }`. -/
structure KeyRule where
  first : Key
  second : Option Key
deriving DecidableEq

/-- Model of `serde_json::Value`: the opaque structured `args` payload. -/
inductive Value where
  | null : Value
  | bool (b : Bool) : Value
  | num (n : Int) : Value
  | str (s : List Char) : Value
  | arr (xs : List Value) : Value
  | obj (fields : List (List Char × Value)) : Value

/-- Source `struct KeyBinding { keys, command, when, args }`. -/
structure KeyBinding where
  keys : KeyRule
  command : List Char
  when : Option (List Char)
  args : Option Value

/-- Source `struct ConfigItem { key, command, when, args }`; its `key` field holds the
display form of the chord sequence. -/
structure ConfigItem where
  key : List Char
  command : List Char
  when : Option (List Char)
  args : Option Value

/-- Source `fn anykey() -> Key`. -/
def anykey : Key := { modifiers := 0, key := [] }

/-- Rust `char::is_ascii_whitespace`: space, tab, line feed, form feed,
carriage return. -/
def isWs (c : Char) : Bool :=
  c = ' ' || c = '\t' || c = '\n' || c = '\x0c' || c = '\r'

/-- Worker for `str::split_ascii_whitespace`: `acc` is the token being
collected; whitespace ends the current token (dropped when empty), every
other character extends it. -/
def splitWsAux (acc : List Char) : List Char → List (List Char)
  | [] => if acc.isEmpty then [] else [acc]
  | c :: cs =>
      if isWs c then (if acc.isEmpty then [] else [acc]) ++ splitWsAux [] cs
      else splitWsAux (acc ++ [c]) cs

/-- Model of `str::split_ascii_whitespace`: maximal runs of non-whitespace characters;
never yields an empty token. -/
def splitWs (s : List Char) : List (List Char) :=
  splitWsAux [] s

/-- Model of `str::split_inclusive("+")`: pieces of the string, each terminated by the
`'+'` that ended it (the final piece may lack the terminator); the empty
string yields no pieces. -/
def splitInc : List Char → List (List Char)
  | [] => []
  | c :: cs =>
      if c = '+' then [c] :: splitInc cs
      else
        match splitInc cs with
        | [] => [[c]]
        | p :: ps => (c :: p) :: ps

/-- Model of `str::to_lowercase`, character-wise ASCII lowering
(`Char.toLower` maps `A`–`Z` to `a`–`z` and fixes everything else). -/
def lowerStr (s : List Char) : List Char :=
  s.map Char.toLower

/-- The `match` arms of `parse_one_key`: which modifier bit (if any) a
`+`-inclusive piece denotes. -/
def modOf (p : List Char) : Option Nat :=
  if p = "ctrl+".toList then some MODIFIER_CONTROL
  else if p = "shift+".toList then some MODIFIER_SHIFT
  else if p = "super+".toList then some MODIFIER_COMMAND
  else if p = "cmd+".toList then some MODIFIER_COMMAND
  else if p = "meta+".toList then some MODIFIER_COMMAND
  else if p = "win+".toList then some MODIFIER_COMMAND
  else if p = "alt+".toList then some MODIFIER_OPTION
  else none

/-- The `for` loop of `parse_one_key`: fold the pieces over the mutable state
`(modifiers, thekey)`; a modifier piece ORs its bit in, any other piece
overwrites `thekey`. -/
def parseLoop : List (List Char) → Nat → Option (List Char) → Nat × Option (List Char)
  | [], m, k => (m, k)
  | p :: ps, m, k =>
      match modOf p with
      | some b => parseLoop ps (m ||| b) k
      | none => parseLoop ps m (some p)

/-- Source `fn parse_one_key(key: &str) -> Key`. -/
def parse_one_key (t : List Char) : Key :=
  let r := parseLoop (splitInc (lowerStr t)) 0 none
  { modifiers := r.1, key := r.2.getD [] }

/-- Source `fn parse_key_sequence(code: &str) -> KeyRule`: the first two
whitespace-separated tokens become the chords, the rest of the iterator is
never consumed. -/
def parse_key_sequence (code : List Char) : KeyRule :=
  let ks := (splitWs code).map parse_one_key
  { first := ks.head?.getD anykey, second := ks[1]? }

/-- Source `impl Display for Key`: modifier prefixes in the fixed order Command,
Option, Control, Shift, then the base label. -/
def displayKey (k : Key) : List Char :=
  (if k.modifiers &&& MODIFIER_COMMAND ≠ 0 then "meta+".toList else []) ++
  (if k.modifiers &&& MODIFIER_OPTION ≠ 0 then "alt+".toList else []) ++
  (if k.modifiers &&& MODIFIER_CONTROL ≠ 0 then "ctrl+".toList else []) ++
  (if k.modifiers &&& MODIFIER_SHIFT ≠ 0 then "shift+".toList else []) ++
  k.key

/-- Source `impl Display for KeyRule`: first chord, then a single space and the
second chord when present. -/
def displayRule (r : KeyRule) : List Char :=
  displayKey r.first ++
  (match r.second with
   | none => []
   | some s => ' ' :: displayKey s)

/-- Source `impl From<&KeyBinding> for ConfigItem`. -/
def ConfigItem.ofBinding (kb : KeyBinding) : ConfigItem :=
  { key := displayRule kb.keys
    command := kb.command
    when := kb.when
    args := kb.args }

/-- Source `KeyBinding::has_control`. -/
def KeyBinding.has_control (kb : KeyBinding) : Bool :=
  kb.keys.first.modifiers &&& MODIFIER_CONTROL ≠ 0

/-- Source `KeyBinding::copy_disabled`: prefix the command with `-` unless it
already starts with `-`. -/
def KeyBinding.copy_disabled (kb : KeyBinding) : KeyBinding :=
  if kb.command.head? = some '-' then kb
  else { kb with command := '-' :: kb.command }

/-- Source `fn map_ctrl_to_cmd(key: &Key) -> Option<Key>`. -/
def map_ctrl_to_cmd (k : Key) : Option Key :=
  if k.modifiers &&& MODIFIER_CONTROL ≠ 0 ∧ k.modifiers &&& MODIFIER_COMMAND = 0 then
    some { modifiers := (k.modifiers ^^^ MODIFIER_CONTROL) ||| MODIFIER_COMMAND, key := k.key }
  else
    some k

/-- Source `fn map_ctrl_binding(kb: &KeyBinding) -> Vec<KeyBinding>`. -/
def map_ctrl_binding (kb : KeyBinding) : List KeyBinding :=
  if kb.keys.first.modifiers &&& MODIFIER_CONTROL ≠ 0 then
    match map_ctrl_to_cmd kb.keys.first with
    | some k1 =>
        let k2 :=
          match kb.keys.second with
          | some k => map_ctrl_to_cmd k
          | none => none
        [kb.copy_disabled,
         { keys := { first := k1, second := k2 }
           command := kb.command
           when := kb.when
           args := kb.args }]
    | none => []
  else []

/-- The modifier-swap rule as the spec words it (for comparison with
`map_ctrl_to_cmd`): when Control is present and Command absent, remove
Control and add Command; otherwise pass the chord through. -/
def swapSpec (k : Key) : Key :=
  if k.modifiers &&& MODIFIER_CONTROL ≠ 0 ∧ k.modifiers &&& MODIFIER_COMMAND = 0 then
    { modifiers := (k.modifiers - MODIFIER_CONTROL) ||| MODIFIER_COMMAND, key := k.key }
  else k

/-- The list of modifier-prefix pieces `displayKey` emits, in display
order. -/
def modPieces (m : Nat) : List (List Char) :=
  (if m &&& MODIFIER_COMMAND ≠ 0 then ["meta+".toList] else []) ++
  (if m &&& MODIFIER_OPTION ≠ 0 then ["alt+".toList] else []) ++
  (if m &&& MODIFIER_CONTROL ≠ 0 then ["ctrl+".toList] else []) ++
  (if m &&& MODIFIER_SHIFT ≠ 0 then ["shift+".toList] else [])

/-- Shape invariant of a base label produced by `parse_one_key`: empty, or a
nonempty piece — `'+'` at most as final character — that is not itself a
modifier piece, already lowercase, and free of ASCII whitespace. -/
def GoodLabel (l : List Char) : Prop :=
  l = [] ∨
  (l ≠ [] ∧ (∀ c ∈ l.dropLast, c ≠ '+') ∧ modOf l = none ∧ lowerStr l = l ∧
    ∀ c ∈ l, isWs c = false)

/-- Shape invariant of a `Key` produced by `parse_one_key`: modifier bits
within the four-flag nibble and a well-shaped label. -/
def GoodKey (k : Key) : Prop :=
  k.modifiers < 16 ∧ GoodLabel k.key

/-- A concrete `ctrl+k → f` binding used as a witness input. -/
def kbW : KeyBinding := ⟨⟨⟨2, ['k']⟩, none⟩, ['f'], none, none⟩

/-- The disabled copy the remapper emits for `kbW`. -/
def dW : KeyBinding := ⟨⟨⟨2, ['k']⟩, none⟩, ['-', 'f'], none, none⟩

/-- The transformed copy the remapper emits for `kbW`. -/
def tW : KeyBinding := ⟨⟨⟨4, ['k']⟩, none⟩, ['f'], none, none⟩

/-! ## Bitwise helper lemmas -/

theorem testBit_one (i : Nat) : Nat.testBit 1 i = decide (i = 0) := by
  rcases i with _ | i
  · decide
  · simp [Nat.testBit_succ]

theorem testBit_two (i : Nat) : Nat.testBit 2 i = decide (i = 1) := by
  rcases i with _ | _ | i
  · decide
  · decide
  · simp [Nat.testBit_succ]

theorem testBit_four (i : Nat) : Nat.testBit 4 i = decide (i = 2) := by
  rcases i with _ | _ | _ | i
  · decide
  · decide
  · decide
  · simp [Nat.testBit_succ]

theorem testBit_eight (i : Nat) : Nat.testBit 8 i = decide (i = 3) := by
  rcases i with _ | _ | _ | _ | i
  · decide
  · decide
  · decide
  · decide
  · simp [Nat.testBit_succ]

theorem xor_one_of_even (q : Nat) (h : q % 2 = 0) : q ^^^ 1 = q + 1 := by
  have hq : Nat.bit (decide (q % 2 = 1)) (q >>> 1) = q :=
    Nat.bit_decide_mod_two_eq_one_shiftRight_one q
  have key := Nat.xor_bit (decide (q % 2 = 1)) (q >>> 1) true 0
  have h1 : Nat.bit true 0 = 1 := rfl
  rw [hq, h1] at key
  rw [key, h]
  simp [Nat.bit_val, Nat.shiftRight_one]
  omega

theorem xor_two_of_bit_clear (y : Nat) (h : y / 2 % 2 = 0) : y ^^^ 2 = y + 2 := by
  have hy : Nat.bit (decide (y % 2 = 1)) (y >>> 1) = y :=
    Nat.bit_decide_mod_two_eq_one_shiftRight_one y
  have key := Nat.xor_bit (decide (y % 2 = 1)) (y >>> 1) false 1
  have h2 : Nat.bit false 1 = 2 := rfl
  rw [hy, h2] at key
  rw [key]
  rw [Nat.shiftRight_one, xor_one_of_even (y / 2) h]
  rcases Nat.mod_two_eq_zero_or_one y with h0 | h0 <;>
    simp [Nat.bit_val, h0] <;> omega

theorem and_two_ne_zero_iff (m : Nat) : m &&& 2 ≠ 0 ↔ m.testBit 1 = true := by
  have h := Nat.and_two_pow m 1
  norm_num at h
  rw [h]
  cases m.testBit 1 <;> simp

theorem and_four_eq_zero_iff (m : Nat) : m &&& 4 = 0 ↔ m.testBit 2 = false := by
  have h := Nat.and_two_pow m 2
  norm_num at h
  rw [h]
  cases m.testBit 2 <;> simp

theorem xor_two_eq_sub (m : Nat) (h : m &&& 2 ≠ 0) : m ^^^ 2 = m - 2 := by
  have hb : m.testBit 1 = true := (and_two_ne_zero_iff m).mp h
  rw [Nat.testBit_to_div_mod] at hb
  simp at hb
  have h2 : 2 ≤ m := by omega
  have hy : (m - 2) / 2 % 2 = 0 := by omega
  have := xor_two_of_bit_clear (m - 2) hy
  have hm : (m - 2) + 2 = m := by omega
  rw [hm] at this
  calc m ^^^ 2 = ((m - 2) ^^^ 2) ^^^ 2 := by rw [this]
    _ = m - 2 := Nat.xor_cancel_right _ _

theorem swap_bits (m : Nat) (hc : m &&& 2 ≠ 0) :
    ((m - 2) ||| 4) &&& 1 = m &&& 1 ∧
    ((m - 2) ||| 4) &&& 8 = m &&& 8 ∧
    ((m - 2) ||| 4) >>> 4 = m >>> 4 ∧
    ((m - 2) ||| 4) &&& 2 = 0 ∧
    ((m - 2) ||| 4) &&& 4 = 4 := by
  have hx : m - 2 = m ^^^ 2 := (xor_two_eq_sub m hc).symm
  have hb : m.testBit 1 = true := (and_two_ne_zero_iff m).mp hc
  rw [hx]
  refine ⟨?_, ?_, ?_, ?_, ?_⟩
  · apply Nat.eq_of_testBit_eq
    intro i
    simp only [Nat.testBit_and, Nat.testBit_or, Nat.testBit_xor, testBit_one, testBit_two,
      testBit_four]
    by_cases h0 : i = 0 <;> simp [h0]
  · apply Nat.eq_of_testBit_eq
    intro i
    simp only [Nat.testBit_and, Nat.testBit_or, Nat.testBit_xor, testBit_eight, testBit_two,
      testBit_four]
    by_cases h0 : i = 3 <;> simp [h0]
  · apply Nat.eq_of_testBit_eq
    intro i
    simp only [Nat.testBit_shiftRight, Nat.testBit_or, Nat.testBit_xor, testBit_two, testBit_four]
    have h1 : ¬(4 + i = 1) := by omega
    have h2 : ¬(4 + i = 2) := by omega
    simp [h1, h2]
  · apply Nat.eq_of_testBit_eq
    intro i
    simp only [Nat.testBit_and, Nat.testBit_or, Nat.testBit_xor, testBit_two, testBit_four,
      Nat.zero_testBit]
    by_cases h0 : i = 1 <;> simp [h0, hb]
  · apply Nat.eq_of_testBit_eq
    intro i
    simp only [Nat.testBit_and, Nat.testBit_or, Nat.testBit_xor, testBit_two, testBit_four]
    by_cases h0 : i = 2 <;> simp [h0]

/-- Function `map_ctrl_to_cmd` computes exactly the spec-worded swap rule. -/
theorem map_ctrl_to_cmd_eq_swapSpec (k : Key) :
    map_ctrl_to_cmd k = some (swapSpec k) := by
  unfold map_ctrl_to_cmd swapSpec
  split
  · next h =>
      have h2 : k.modifiers &&& 2 ≠ 0 := h.1
      have hx : k.modifiers ^^^ MODIFIER_CONTROL = k.modifiers - MODIFIER_CONTROL :=
        xor_two_eq_sub k.modifiers h2
      rw [hx]
  · rfl

/-! ## Claim theorems on the remapper -/

/-- C2: the modifier-swap rule, applied to any chord: when the chord's
modifiers include Control and not Command, the result removes Control, adds
Command, and leaves every other modifier bit (Shift, Option, and all bits
above the modifier nibble) and the base label unchanged; otherwise the chord
passes through unmodified.  Remapping the binding `ctrl+k ctrl+s` produces a
transformed chord sequence displaying as `meta+k meta+s`. -/
theorem map_ctrl_to_cmd_swap_rule (k : Key) :
    map_ctrl_to_cmd k = some (swapSpec k) ∧
    (swapSpec k).key = k.key ∧
    (swapSpec k).modifiers &&& MODIFIER_SHIFT = k.modifiers &&& MODIFIER_SHIFT ∧
    (swapSpec k).modifiers &&& MODIFIER_OPTION = k.modifiers &&& MODIFIER_OPTION ∧
    (swapSpec k).modifiers >>> 4 = k.modifiers >>> 4 ∧
    ((swapSpec k).modifiers &&& MODIFIER_CONTROL =
      if k.modifiers &&& MODIFIER_CONTROL ≠ 0 ∧ k.modifiers &&& MODIFIER_COMMAND = 0 then 0
      else k.modifiers &&& MODIFIER_CONTROL) ∧
    ((swapSpec k).modifiers &&& MODIFIER_COMMAND =
      if k.modifiers &&& MODIFIER_CONTROL ≠ 0 ∧ k.modifiers &&& MODIFIER_COMMAND = 0 then
        MODIFIER_COMMAND
      else k.modifiers &&& MODIFIER_COMMAND) ∧
    ((map_ctrl_binding ⟨parse_key_sequence "ctrl+k ctrl+s".toList,
        "foo".toList, none, none⟩).map (fun b => displayRule b.keys)) =
      ["ctrl+k ctrl+s".toList, "meta+k meta+s".toList] := by
  refine ⟨map_ctrl_to_cmd_eq_swapSpec k, ?_, ?_, ?_, ?_, ?_, ?_, by decide⟩ <;>
    unfold swapSpec <;> split
  · rfl
  · rfl
  · next h => exact (swap_bits k.modifiers h.1).1
  · rfl
  · next h => exact (swap_bits k.modifiers h.1).2.1
  · rfl
  · next h => exact (swap_bits k.modifiers h.1).2.2.1
  · rfl
  · next h =>
      simp only [if_pos h]
      exact (swap_bits k.modifiers h.1).2.2.2.1
  · next h => simp only [if_neg h]
  · next h =>
      simp only [if_pos h]
      exact (swap_bits k.modifiers h.1).2.2.2.2
  · next h => simp only [if_neg h]

/-- C4: disabling is idempotent — the disabled copy of a binding whose
command already starts with the `-` marker is the binding itself, and
otherwise the disabled copy only prefixes the command with `-`, leaving
every other field unchanged. -/
theorem copy_disabled_idempotent (kb : KeyBinding) :
    kb.copy_disabled.copy_disabled = kb.copy_disabled ∧
    kb.copy_disabled.keys = kb.keys ∧
    kb.copy_disabled.when = kb.when ∧
    kb.copy_disabled.args = kb.args ∧
    kb.copy_disabled.command =
      (if kb.command.head? = some '-' then kb.command else '-' :: kb.command) := by
  unfold KeyBinding.copy_disabled
  by_cases h : kb.command.head? = some '-' <;> simp [h]

/-- The remapper, written as a single gate equation over the spec-worded
swap rule. -/
theorem map_ctrl_binding_eq (kb : KeyBinding) :
    map_ctrl_binding kb =
      (if kb.keys.first.modifiers &&& MODIFIER_CONTROL ≠ 0 then
        [kb.copy_disabled,
         { keys := { first := swapSpec kb.keys.first, second := kb.keys.second.map swapSpec }
           command := kb.command
           when := kb.when
           args := kb.args }]
      else []) := by
  unfold map_ctrl_binding
  by_cases h : kb.keys.first.modifiers &&& MODIFIER_CONTROL ≠ 0
  · rw [if_pos h, if_pos h, map_ctrl_to_cmd_eq_swapSpec]
    cases hs : kb.keys.second
    · rfl
    · next k => simp [map_ctrl_to_cmd_eq_swapSpec]
  · rw [if_neg h, if_neg h]

/-- C1: the remapper gates only on the first chord's Control bit — without
Control it emits nothing, with Control it emits exactly the disabled copy
followed by the swap-transformed copy; on input `{chord="ctrl+k",
command="foo"}` it yields exactly `{chord="ctrl+k", command="-foo"}` then
`{chord="meta+k", command="foo"}`. -/
theorem map_ctrl_binding_gate (kb : KeyBinding) :
    map_ctrl_binding kb =
      (if kb.keys.first.modifiers &&& MODIFIER_CONTROL ≠ 0 then
        [kb.copy_disabled,
         { keys := { first := swapSpec kb.keys.first, second := kb.keys.second.map swapSpec }
           command := kb.command
           when := kb.when
           args := kb.args }]
      else []) ∧
    ((map_ctrl_binding ⟨parse_key_sequence "ctrl+k".toList, "foo".toList,
        none, none⟩).map ConfigItem.ofBinding) =
      [⟨"ctrl+k".toList, "-foo".toList, none, none⟩,
       ⟨"meta+k".toList, "foo".toList, none, none⟩] :=
  ⟨map_ctrl_binding_eq kb, rfl⟩

/-- C10: the remapper's output length is 0 or 2, never 1, because the
per-chord swap function returns `some` key on every input chord. -/
theorem map_ctrl_binding_length_zero_or_two (kb : KeyBinding) (k : Key) :
    ((map_ctrl_binding kb).length = 0 ∨ (map_ctrl_binding kb).length = 2) ∧
    (map_ctrl_binding kb).length ≠ 1 ∧
    (map_ctrl_to_cmd k).isSome = true := by
  refine ⟨?_, ?_, ?_⟩
  · unfold map_ctrl_binding
    by_cases h : kb.keys.first.modifiers &&& MODIFIER_CONTROL ≠ 0
    · rw [if_pos h, map_ctrl_to_cmd_eq_swapSpec]
      right
      rfl
    · rw [if_neg h]
      left
      rfl
  · unfold map_ctrl_binding
    by_cases h : kb.keys.first.modifiers &&& MODIFIER_CONTROL ≠ 0
    · rw [if_pos h, map_ctrl_to_cmd_eq_swapSpec]
      simp
    · rw [if_neg h]
      simp
  · unfold map_ctrl_to_cmd
    split <;> rfl

/-! ## Character and token-level helper lemmas -/

theorem toNat_ofNat_lt (n : Nat) (h : n < 0xd800) : (Char.ofNat n).toNat = n := by
  unfold Char.ofNat
  rw [dif_pos (Or.inl h)]
  simp [Char.ofNatAux, Char.toNat, UInt32.toNat, UInt32.ofNatCore]

theorem toLower_idem (c : Char) : c.toLower.toLower = c.toLower := by
  unfold Char.toLower
  by_cases h : c.toNat ≥ 65 ∧ c.toNat ≤ 90
  · rw [if_pos h]
    have hv : (Char.ofNat (c.toNat + 32)).toNat = c.toNat + 32 :=
      toNat_ofNat_lt _ (by omega)
    have hno : ¬((Char.ofNat (c.toNat + 32)).toNat ≥ 65 ∧
        (Char.ofNat (c.toNat + 32)).toNat ≤ 90) := by
      intro hcon
      rw [hv] at hcon
      omega
    rw [if_neg hno]
  · rw [if_neg h, if_neg h]

theorem lowerStr_idem (s : List Char) : lowerStr (lowerStr s) = lowerStr s := by
  induction s with
  | nil => rfl
  | cons c cs ih => simp_all [lowerStr, toLower_idem]

/-- The loop state's key slot: the last non-modifier piece wins, falling
back to the initial slot value. -/
theorem parseLoop_thekey (ps : List (List Char)) :
    ∀ m k, (parseLoop ps m k).2 =
      (((ps.filter (fun p => (modOf p).isNone)).getLast?).or k : Option (List Char)) := by
  induction ps with
  | nil => intro m k; rfl
  | cons p ps ih =>
      intro m k
      by_cases h : (modOf p).isNone
      · rcases ho : modOf p with _ | b
        · simp only [parseLoop, ho]
          rw [ih]
          have hf : (p :: ps).filter (fun p => (modOf p).isNone) =
              p :: ps.filter (fun p => (modOf p).isNone) := by
            simp [List.filter, ho]
          rw [hf]
          rcases hl : (ps.filter (fun p => (modOf p).isNone)).getLast? with _ | q
          · simp [List.getLast?_cons, hl]
          · simp [List.getLast?_cons, hl]
        · rw [ho] at h; simp at h
      · rcases ho : modOf p with _ | b
        · rw [ho] at h; simp at h
        · simp only [parseLoop, ho]
          rw [ih]
          have hf : (p :: ps).filter (fun p => (modOf p).isNone) =
              ps.filter (fun p => (modOf p).isNone) := by
            simp [List.filter, ho]
          rw [hf]

theorem splitWsAux_ne_nil (s : List Char) : ∀ acc, acc ≠ [] → splitWsAux acc s ≠ [] := by
  induction s with
  | nil =>
      intro acc h
      simp [splitWsAux, h]
  | cons c cs ih =>
      intro acc h
      by_cases hw : isWs c
      · simp [splitWsAux, hw, h]
      · simp only [splitWsAux, if_neg hw]
        exact ih (acc ++ [c]) (by simp)

/-- C5: in the chord parser, every `+`-delimited piece that is not a
recognized modifier becomes the base label, the last such piece winning;
with no such piece the label is empty.  Concretely, in `ctrl+x+y` the
earlier candidate `x+` is silently discarded in favour of `y`. -/
theorem parse_one_key_last_nonmodifier (t : List Char) :
    (parse_one_key t).key =
      ((((splitInc (lowerStr t)).filter (fun p => (modOf p).isNone)).getLast?).getD []) ∧
    (parse_one_key "ctrl+x+y".toList).key = ['y'] ∧
    (parse_one_key "ctrl+".toList).key = [] := by
  refine ⟨?_, by decide, by decide⟩
  show (parseLoop (splitInc (lowerStr t)) 0 none).2.getD [] = _
  rw [parseLoop_thekey]
  rcases (((splitInc (lowerStr t)).filter (fun p => (modOf p).isNone)).getLast?) with _ | q <;> rfl

/-- C6: the sequence parser splits on ASCII whitespace, takes the first
parsed chord and (when present) the second, silently discards all later
tokens, and yields `⟨{modifiers := 0, label := ""}, none⟩` exactly on
all-whitespace (in particular empty) input. -/
theorem parse_key_sequence_tokens (code : List Char) :
    parse_key_sequence code =
      (match (splitWs code).map parse_one_key with
       | [] => ⟨anykey, none⟩
       | [k1] => ⟨k1, none⟩
       | k1 :: k2 :: _ => ⟨k1, some k2⟩) ∧
    (code.all (fun c => isWs c) = true ↔ splitWs code = []) ∧
    anykey = ⟨0, []⟩ ∧
    parse_key_sequence "a b c d".toList = ⟨⟨0, ['a']⟩, some ⟨0, ['b']⟩⟩ := by
  refine ⟨?_, ?_, rfl, by decide⟩
  · rcases h : (splitWs code).map parse_one_key with _ | ⟨k1, _ | ⟨k2, tl⟩⟩ <;>
      simp [parse_key_sequence, h]
  · rw [List.all_eq_true]
    show (∀ c ∈ code, isWs c = true) ↔ splitWsAux [] code = []
    induction code with
    | nil => simp [splitWsAux]
    | cons c cs ih =>
        by_cases hw : isWs c
        · simpa [splitWsAux, hw] using ih
        · simp only [splitWsAux, if_neg hw]
          constructor
          · intro h
            exact absurd (h c (by simp)) (by simp [hw])
          · intro h
            exact absurd h (splitWsAux_ne_nil cs [c] (by simp))

/-- C7: the chord parser lowercases its token; the recognized modifier
pieces are exactly `ctrl+`, `shift+`, `super+`, `cmd+`, `meta+`, `win+`,
`alt+` with the four Command aliases sharing one flag; each alias on `k`
yields modifiers Command and label `k`, and `ctrl+shift+k` yields
Control+Shift and label `k`. -/
theorem parse_one_key_modifier_aliases (t p : List Char) :
    parse_one_key (lowerStr t) = parse_one_key t ∧
    ((modOf p).isSome = true ↔
      p ∈ ["ctrl+".toList, "shift+".toList, "super+".toList, "cmd+".toList,
        "meta+".toList, "win+".toList, "alt+".toList]) ∧
    modOf "ctrl+".toList = some MODIFIER_CONTROL ∧
    modOf "shift+".toList = some MODIFIER_SHIFT ∧
    modOf "super+".toList = some MODIFIER_COMMAND ∧
    modOf "cmd+".toList = some MODIFIER_COMMAND ∧
    modOf "meta+".toList = some MODIFIER_COMMAND ∧
    modOf "win+".toList = some MODIFIER_COMMAND ∧
    modOf "alt+".toList = some MODIFIER_OPTION ∧
    parse_one_key "cmd+k".toList = ⟨MODIFIER_COMMAND, ['k']⟩ ∧
    parse_one_key "meta+k".toList = ⟨MODIFIER_COMMAND, ['k']⟩ ∧
    parse_one_key "super+k".toList = ⟨MODIFIER_COMMAND, ['k']⟩ ∧
    parse_one_key "win+k".toList = ⟨MODIFIER_COMMAND, ['k']⟩ ∧
    parse_one_key "ctrl+shift+k".toList = ⟨MODIFIER_CONTROL ||| MODIFIER_SHIFT, ['k']⟩ := by
  refine ⟨?_, ?_, by decide, by decide, by decide, by decide, by decide, by decide, by decide,
    by decide, by decide, by decide, by decide, by decide⟩
  · unfold parse_one_key
    rw [lowerStr_idem]
  · unfold modOf
    split_ifs <;> simp_all

/-- C8: both emitted bindings preserve the untouched fields — the disabled
copy keeps chord sequence, context and args (only the command may gain the
marker), the transformed copy keeps command, context and args (only the
chords are rewritten). -/
theorem map_ctrl_binding_frame (kb d t : KeyBinding)
    (h : map_ctrl_binding kb = [d, t]) :
    d.keys = kb.keys ∧ d.when = kb.when ∧ d.args = kb.args ∧
    (d.command = kb.command ∨ d.command = '-' :: kb.command) ∧
    t.command = kb.command ∧ t.when = kb.when ∧ t.args = kb.args := by
  rw [map_ctrl_binding_eq] at h
  split at h
  · injection h with h1 h2
    injection h2 with h2 _
    subst h1
    subst h2
    refine ⟨?_, ?_, ?_, ?_, rfl, rfl, rfl⟩ <;>
      unfold KeyBinding.copy_disabled <;> split <;> simp
  · exact absurd h (by simp)

/-- Witness for C8 at the binding `ctrl+k → f`. -/
theorem map_ctrl_binding_frame_witness :
    dW.keys = kbW.keys ∧ dW.when = kbW.when ∧ dW.args = kbW.args ∧
    (dW.command = kbW.command ∨ dW.command = '-' :: kbW.command) ∧
    tW.command = kbW.command ∧ tW.when = kbW.when ∧ tW.args = kbW.args :=
  map_ctrl_binding_frame kbW dW tW (by rfl)

/-- C9: a key displays as its modifier prefixes in the fixed order
`meta+`, `alt+`, `ctrl+`, `shift+` — each exactly when its flag is set —
followed by the base label; a chord sequence displays as the first chord,
then a single space and the second chord only when one exists. -/
theorem display_format (k : Key) (r : KeyRule) :
    displayKey k =
      (([(MODIFIER_COMMAND, "meta+".toList), (MODIFIER_OPTION, "alt+".toList),
         (MODIFIER_CONTROL, "ctrl+".toList), (MODIFIER_SHIFT, "shift+".toList)].filter
        (fun pr => decide (k.modifiers &&& pr.1 ≠ 0))).map Prod.snd).flatten ++ k.key ∧
    displayRule r = displayKey r.first ++
      (match r.second with
       | none => []
       | some s => ' ' :: displayKey s) ∧
    displayKey ⟨15, ['k']⟩ = "meta+alt+ctrl+shift+k".toList ∧
    displayRule ⟨⟨2, ['k']⟩, some ⟨2, ['s']⟩⟩ = "ctrl+k ctrl+s".toList ∧
    displayRule ⟨⟨2, ['k']⟩, none⟩ = "ctrl+k".toList := by
  refine ⟨?_, rfl, by decide, by decide, by decide⟩
  by_cases h4 : k.modifiers &&& MODIFIER_COMMAND ≠ 0 <;>
    by_cases h8 : k.modifiers &&& MODIFIER_OPTION ≠ 0 <;>
      by_cases h2 : k.modifiers &&& MODIFIER_CONTROL ≠ 0 <;>
        by_cases h1 : k.modifiers &&& MODIFIER_SHIFT ≠ 0 <;>
          simp [displayKey, h4, h8, h2, h1]

/-! ## `splitInc` structural lemmas -/

theorem splitInc_pieces_ne_nil (s : List Char) : ∀ p ∈ splitInc s, p ≠ [] := by
  induction s with
  | nil => intro p hp; simp [splitInc] at hp
  | cons c cs ih =>
      intro p hp
      by_cases hc : c = '+'
      · simp only [splitInc, if_pos hc, List.mem_cons] at hp
        rcases hp with hp | hp
        · subst hp; simp
        · exact ih p hp
      · simp only [splitInc, if_neg hc] at hp
        rcases hs : splitInc cs with _ | ⟨q, qs⟩
        · rw [hs] at hp
          simp at hp
          subst hp; simp
        · rw [hs] at hp
          simp only [List.mem_cons] at hp
          rcases hp with hp | hp
          · subst hp; simp
          · exact ih p (by rw [hs]; exact List.mem_cons_of_mem q hp)

theorem splitInc_subset (s : List Char) : ∀ p ∈ splitInc s, ∀ c ∈ p, c ∈ s := by
  induction s with
  | nil => intro p hp; simp [splitInc] at hp
  | cons c cs ih =>
      intro p hp x hx
      by_cases hc : c = '+'
      · simp only [splitInc, if_pos hc, List.mem_cons] at hp
        rcases hp with hp | hp
        · subst hp; simp at hx; subst hx; simp
        · exact List.mem_cons_of_mem c (ih p hp x hx)
      · simp only [splitInc, if_neg hc] at hp
        rcases hs : splitInc cs with _ | ⟨q, qs⟩
        · rw [hs] at hp
          simp at hp
          subst hp
          simp at hx
          subst hx; simp
        · rw [hs] at hp
          simp only [List.mem_cons] at hp
          rcases hp with hp | hp
          · subst hp
            rcases List.mem_cons.mp hx with hx | hx
            · subst hx; simp
            · exact List.mem_cons_of_mem c
                (ih q (by rw [hs]; exact List.mem_cons_self q qs) x hx)
          · exact List.mem_cons_of_mem c
              (ih p (by rw [hs]; exact List.mem_cons_of_mem q hp) x hx)

theorem splitInc_dropLast_no_plus (s : List Char) :
    ∀ p ∈ splitInc s, ∀ c ∈ p.dropLast, c ≠ '+' := by
  induction s with
  | nil => intro p hp; simp [splitInc] at hp
  | cons c cs ih =>
      intro p hp x hx
      by_cases hc : c = '+'
      · simp only [splitInc, if_pos hc, List.mem_cons] at hp
        rcases hp with hp | hp
        · subst hp; simp at hx
        · exact ih p hp x hx
      · simp only [splitInc, if_neg hc] at hp
        rcases hs : splitInc cs with _ | ⟨q, qs⟩
        · rw [hs] at hp
          simp at hp
          subst hp
          simp at hx
        · rw [hs] at hp
          simp only [List.mem_cons] at hp
          rcases hp with hp | hp
          · subst hp
            have hq : q ≠ [] := splitInc_pieces_ne_nil cs q (by rw [hs]; exact List.mem_cons_self q qs)
            rw [List.dropLast_cons_of_ne_nil hq] at hx
            rcases List.mem_cons.mp hx with hx | hx
            · subst hx; exact hc
            · exact ih q (by rw [hs]; exact List.mem_cons_self q qs) x hx
          · exact ih p (by rw [hs]; exact List.mem_cons_of_mem q hp) x hx

theorem splitInc_piece_cons (w : List Char) (t : List Char) (hw : ∀ c ∈ w, c ≠ '+') :
    splitInc (w ++ '+' :: t) = (w ++ ['+']) :: splitInc t := by
  induction w with
  | nil => simp [splitInc]
  | cons c w ih =>
      have hc : c ≠ '+' := hw c (by simp)
      have hw' : ∀ x ∈ w, x ≠ '+' := fun x hx => hw x (List.mem_cons_of_mem c hx)
      simp only [List.cons_append, splitInc, if_neg hc]
      have ha : w.append ('+' :: t) = w ++ '+' :: t := rfl
      rw [ha, ih hw']

theorem splitInc_no_plus (w : List Char) (hw : ∀ c ∈ w, c ≠ '+') (hne : w ≠ []) :
    splitInc w = [w] := by
  induction w with
  | nil => exact absurd rfl hne
  | cons c w ih =>
      have hc : c ≠ '+' := hw c (by simp)
      have hw' : ∀ x ∈ w, x ≠ '+' := fun x hx => hw x (List.mem_cons_of_mem c hx)
      by_cases hwe : w = []
      · subst hwe; simp [splitInc, if_neg hc]
      · simp only [splitInc, if_neg hc, ih hw' hwe]

theorem splitInc_eq_nil_iff (s : List Char) : splitInc s = [] ↔ s = [] := by
  constructor
  · intro h
    rcases s with _ | ⟨c, cs⟩
    · rfl
    · exfalso
      by_cases hc : c = '+'
      · simp [splitInc, if_pos hc] at h
      · simp only [splitInc, if_neg hc] at h
        rcases hs : splitInc cs with _ | ⟨q, qs⟩ <;> rw [hs] at h <;> simp at h
  · intro h; subst h; rfl

theorem splitInc_flatten_pieces (L : List (List Char))
    (hL : ∀ p ∈ L, ∃ w, p = w ++ ['+'] ∧ ∀ c ∈ w, c ≠ '+') (t : List Char) :
    splitInc (L.flatten ++ t) = L ++ splitInc t := by
  induction L with
  | nil => simp
  | cons p L ih =>
      obtain ⟨w, hpw, hw⟩ := hL p (List.mem_cons_self p L)
      have hL' : ∀ q ∈ L, ∃ w, q = w ++ ['+'] ∧ ∀ c ∈ w, c ≠ '+' :=
        fun q hq => hL q (List.mem_cons_of_mem p hq)
      subst hpw
      rw [List.flatten_cons, List.append_assoc, List.append_assoc]
      simp only [List.singleton_append]
      rw [splitInc_piece_cons w _ hw, ih hL']
      simp

/-! ## `splitWs` structural lemmas -/

theorem splitWsAux_append_noWs (b : List Char) :
    ∀ acc rest, (∀ c ∈ b, isWs c = false) →
      splitWsAux acc (b ++ rest) = splitWsAux (acc ++ b) rest := by
  induction b with
  | nil => intro acc rest _; simp
  | cons c b ih =>
      intro acc rest hb
      have hc : isWs c = false := hb c (by simp)
      have hb' : ∀ x ∈ b, isWs x = false := fun x hx => hb x (List.mem_cons_of_mem c hx)
      simp only [List.cons_append, splitWsAux, hc, Bool.false_eq_true, if_false]
      have ha : b.append rest = b ++ rest := rfl
      rw [ha, ih (acc ++ [c]) rest hb']
      simp

theorem splitWs_of_noWs (a : List Char) (ha : ∀ c ∈ a, isWs c = false) (hne : a ≠ []) :
    splitWs a = [a] := by
  unfold splitWs
  have h := splitWsAux_append_noWs a [] [] ha
  simp only [List.append_nil, List.nil_append] at h
  rw [h]
  simp [splitWsAux, hne]

theorem splitWs_pair (a b : List Char) (ha : ∀ c ∈ a, isWs c = false) (hane : a ≠ [])
    (hb : ∀ c ∈ b, isWs c = false) (hbne : b ≠ []) :
    splitWs (a ++ ' ' :: b) = [a, b] := by
  unfold splitWs
  have h := splitWsAux_append_noWs a [] (' ' :: b) ha
  simp only [List.nil_append] at h
  rw [h]
  have hsp : isWs ' ' = true := by decide
  simp only [splitWsAux, hsp, if_true, hane, List.isEmpty_eq_true, if_neg hane]
  have h2 := splitWsAux_append_noWs b [] [] hb
  simp only [List.append_nil, List.nil_append] at h2
  rw [h2]
  simp [splitWsAux, hbne]

theorem splitWsAux_tokens (s : List Char) :
    ∀ acc, (∀ c ∈ acc, isWs c = false) →
      ∀ tok ∈ splitWsAux acc s, tok ≠ [] ∧ ∀ c ∈ tok, isWs c = false := by
  induction s with
  | nil =>
      intro acc hacc tok htok
      simp only [splitWsAux] at htok
      split at htok
      · simp at htok
      · next hne =>
          simp at htok
          subst htok
          exact ⟨by simpa using hne, hacc⟩
  | cons c cs ih =>
      intro acc hacc tok htok
      by_cases hw : isWs c
      · simp only [splitWsAux, hw, if_true] at htok
        rcases List.mem_append.mp htok with h | h
        · split at h
          · simp at h
          · next hne =>
              simp at h
              subst h
              exact ⟨by simpa using hne, hacc⟩
        · exact ih [] (by simp) tok h
      · simp only [splitWsAux, hw, Bool.false_eq_true, if_false] at htok
        refine ih (acc ++ [c]) ?_ tok htok
        intro x hx
        rcases List.mem_append.mp hx with h | h
        · exact hacc x h
        · simp at h
          subst h
          simpa using hw

theorem splitWs_tokens (s : List Char) :
    ∀ tok ∈ splitWs s, tok ≠ [] ∧ ∀ c ∈ tok, isWs c = false :=
  splitWsAux_tokens s [] (by simp)

/-! ## `parseLoop` state lemmas -/

theorem lor_eq_zero (m b : Nat) (h : m ||| b = 0) : m = 0 ∧ b = 0 := by
  constructor <;> apply Nat.eq_of_testBit_eq <;> intro i <;>
    have hb := congrArg (fun x => Nat.testBit x i) h <;>
      simp only [Nat.testBit_or, Nat.zero_testBit, Bool.or_eq_false_iff] at hb <;>
        simp [hb.1, hb.2]

theorem modOf_cases (p : List Char) (b : Nat) (h : modOf p = some b) :
    b = 1 ∨ b = 2 ∨ b = 4 ∨ b = 8 := by
  unfold modOf MODIFIER_SHIFT MODIFIER_CONTROL MODIFIER_COMMAND MODIFIER_OPTION at h
  split_ifs at h <;> injection h with h2 <;> omega

theorem parseLoop_append (ps qs : List (List Char)) :
    ∀ m k, parseLoop (ps ++ qs) m k =
      parseLoop qs (parseLoop ps m k).1 (parseLoop ps m k).2 := by
  induction ps with
  | nil => intro m k; rfl
  | cons p ps ih =>
      intro m k
      simp only [List.cons_append, parseLoop]
      rcases modOf p with _ | b <;> simp [ih]

theorem parseLoop_mods_lt (ps : List (List Char)) :
    ∀ m k, m < 16 → (parseLoop ps m k).1 < 16 := by
  induction ps with
  | nil => intro m k h; exact h
  | cons p ps ih =>
      intro m k h
      simp only [parseLoop]
      rcases ho : modOf p with _ | b
      · exact ih m (some p) h
      · refine ih (m ||| b) k ?_
        have hb : b < 16 := by rcases modOf_cases p b ho with h | h | h | h <;> omega
        have : m ||| b < 2 ^ 4 := Nat.or_lt_two_pow (n := 4) (by omega) (by omega)
        omega

theorem parseLoop_mods_zero (ps : List (List Char)) :
    ∀ m k, (parseLoop ps m k).1 = 0 → m = 0 ∧ ∀ p ∈ ps, modOf p = none := by
  induction ps with
  | nil => intro m k h; exact ⟨h, by simp⟩
  | cons p ps ih =>
      intro m k h
      simp only [parseLoop] at h
      rcases ho : modOf p with _ | b
      · rw [ho] at h
        obtain ⟨hm, hall⟩ := ih m (some p) h
        refine ⟨hm, ?_⟩
        intro q hq
        rcases List.mem_cons.mp hq with hq | hq
        · subst hq; exact ho
        · exact hall q hq
      · rw [ho] at h
        obtain ⟨hm, _⟩ := ih (m ||| b) k h
        obtain ⟨_, hb0⟩ := lor_eq_zero m b hm
        rcases modOf_cases p b ho with h' | h' | h' | h' <;> omega

/-! ## `modPieces` and lowercase facts -/

theorem displayKey_eq_flatten (k : Key) :
    displayKey k = (modPieces k.modifiers).flatten ++ k.key := by
  unfold displayKey modPieces
  by_cases h4 : k.modifiers &&& MODIFIER_COMMAND ≠ 0 <;>
    by_cases h8 : k.modifiers &&& MODIFIER_OPTION ≠ 0 <;>
      by_cases h2 : k.modifiers &&& MODIFIER_CONTROL ≠ 0 <;>
        by_cases h1 : k.modifiers &&& MODIFIER_SHIFT ≠ 0 <;>
          simp [h4, h8, h2, h1]

theorem modPieces_shape (m : Nat) :
    ∀ p ∈ modPieces m, ∃ w, p = w ++ ['+'] ∧ ∀ c ∈ w, c ≠ '+' := by
  intro p hp
  have hmem : p = "meta+".toList ∨ p = "alt+".toList ∨ p = "ctrl+".toList ∨
      p = "shift+".toList := by
    unfold modPieces at hp
    split_ifs at hp <;> simp at hp <;> tauto
  rcases hmem with h | h | h | h
  · subst h; exact ⟨"meta".toList, by decide, by decide⟩
  · subst h; exact ⟨"alt".toList, by decide, by decide⟩
  · subst h; exact ⟨"ctrl".toList, by decide, by decide⟩
  · subst h; exact ⟨"shift".toList, by decide, by decide⟩

theorem parseLoop_modPieces : ∀ m, m < 16 → parseLoop (modPieces m) 0 none = (m, none) := by
  decide

theorem lowerStr_modPieces :
    ∀ m, m < 16 → lowerStr (modPieces m).flatten = (modPieces m).flatten := by
  decide

theorem modPieces_noWs :
    ∀ m, m < 16 → ∀ c ∈ (modPieces m).flatten, isWs c = false := by
  decide

theorem modPieces_flatten_isEmpty :
    ∀ m, m < 16 → ((modPieces m).flatten.isEmpty = decide (m = 0)) := by
  decide

theorem isWs_toLower (c : Char) (h : isWs c = false) : isWs c.toLower = false := by
  unfold Char.toLower
  by_cases hc : c.toNat ≥ 65 ∧ c.toNat ≤ 90
  · rw [if_pos hc]
    have hv := toNat_ofNat_lt (c.toNat + 32) (by omega)
    simp only [isWs, Bool.or_eq_false_iff, decide_eq_false_iff_not]
    have htab : ('\t' : Char).toNat = 9 := rfl
    have hnl : ('\n' : Char).toNat = 10 := rfl
    have hff : ('\x0c' : Char).toNat = 12 := rfl
    have hcr : ('\r' : Char).toNat = 13 := rfl
    have hsp : (' ' : Char).toNat = 32 := rfl
    refine ⟨⟨⟨⟨fun h1 => ?_, fun h1 => ?_⟩, fun h1 => ?_⟩, fun h1 => ?_⟩, fun h1 => ?_⟩ <;>
      have h2 := congrArg Char.toNat h1 <;> rw [hv] at h2 <;> omega
  · rw [if_neg hc]
    exact h

theorem lowerStr_mem_fixed (s : List Char) : ∀ c ∈ lowerStr s, Char.toLower c = c := by
  intro c hc
  obtain ⟨c0, _, hc0⟩ := List.mem_map.mp hc
  rw [← hc0]
  exact toLower_idem c0

theorem lowerStr_eq_self (l : List Char) (h : ∀ c ∈ l, Char.toLower c = c) :
    lowerStr l = l := by
  induction l with
  | nil => rfl
  | cons c cs ih =>
      have hc := h c (by simp)
      have hcs := ih (fun x hx => h x (List.mem_cons_of_mem c hx))
      simp [lowerStr] at *
      exact ⟨hc, hcs⟩

theorem lowerStr_noWs (s : List Char) (h : ∀ c ∈ s, isWs c = false) :
    ∀ c ∈ lowerStr s, isWs c = false := by
  intro c hc
  obtain ⟨c0, hc0m, hc0⟩ := List.mem_map.mp hc
  rw [← hc0]
  exact isWs_toLower c0 (h c0 hc0m)

/-! ## The `GoodKey` invariant and the single-chord round trip -/

theorem mem_of_getLast?_eq {α : Type} (l : List α) (p : α) (h : l.getLast? = some p) :
    p ∈ l := by
  have hm : p ∈ l.getLast? := Option.mem_def.mpr h
  obtain ⟨hne, heq⟩ := List.mem_getLast?_eq_getLast hm
  rw [heq]
  exact List.getLast_mem hne

theorem parseLoop_key_source (ps : List (List Char)) (p : List Char)
    (h : (parseLoop ps 0 none).2 = some p) : p ∈ ps ∧ modOf p = none := by
  rw [parseLoop_thekey, Option.or_none] at h
  have hm : p ∈ ps.filter (fun q => (modOf q).isNone) := mem_of_getLast?_eq _ p h
  obtain ⟨hmem, hnone⟩ := List.mem_filter.mp hm
  exact ⟨hmem, Option.isNone_iff_eq_none.mp hnone⟩

theorem parse_one_key_reduce (t : List Char) :
    parse_one_key t = ⟨(parseLoop (splitInc (lowerStr t)) 0 none).1,
      (parseLoop (splitInc (lowerStr t)) 0 none).2.getD []⟩ := rfl

theorem parse_one_key_good (t : List Char) (h : ∀ c ∈ t, isWs c = false) :
    GoodKey (parse_one_key t) := by
  constructor
  · rw [parse_one_key_reduce]
    exact parseLoop_mods_lt _ 0 none (by omega)
  · rcases hr : (parseLoop (splitInc (lowerStr t)) 0 none).2 with _ | p
    · left
      rw [parse_one_key_reduce, hr]
      rfl
    · right
      obtain ⟨hpm, hpo⟩ := parseLoop_key_source _ p hr
      have hlab : (parse_one_key t).key = p := by rw [parse_one_key_reduce, hr]; rfl
      rw [hlab]
      refine ⟨splitInc_pieces_ne_nil _ p hpm, splitInc_dropLast_no_plus _ p hpm, hpo, ?_, ?_⟩
      · exact lowerStr_eq_self p (fun c hc => lowerStr_mem_fixed t c (splitInc_subset _ p hpm c hc))
      · exact fun c hc => lowerStr_noWs t h c (splitInc_subset _ p hpm c hc)

theorem splitInc_good_label (l : List Char) (hne : l ≠ [])
    (hdrop : ∀ c ∈ l.dropLast, c ≠ '+') : splitInc l = [l] := by
  have hsplit := List.dropLast_append_getLast hne
  by_cases hlast : l.getLast hne = '+'
  · conv_lhs => rw [← hsplit, hlast]
    have := splitInc_piece_cons l.dropLast [] hdrop
    simp only [List.append_nil] at this
    rw [this]
    rw [← hlast, hsplit]
    rfl
  · apply splitInc_no_plus l ?_ hne
    intro c hc
    rw [← hsplit] at hc
    rcases List.mem_append.mp hc with h | h
    · exact hdrop c h
    · simp at h
      subst h
      exact hlast

theorem parse_one_key_roundtrip (k : Key) (hk : GoodKey k) :
    parse_one_key (displayKey k) = k := by
  obtain ⟨hm, hl⟩ := hk
  have hlow : lowerStr k.key = k.key := by
    rcases hl with h | ⟨_, _, _, h, _⟩
    · rw [h]; rfl
    · exact h
  have h1 : lowerStr (displayKey k) = (modPieces k.modifiers).flatten ++ k.key := by
    rw [displayKey_eq_flatten]
    show List.map Char.toLower _ = _
    rw [List.map_append]
    show lowerStr (modPieces k.modifiers).flatten ++ lowerStr k.key = _
    rw [lowerStr_modPieces k.modifiers hm, hlow]
  have h2 : splitInc (lowerStr (displayKey k)) = modPieces k.modifiers ++ splitInc k.key := by
    rw [h1, splitInc_flatten_pieces (modPieces k.modifiers) (modPieces_shape _) k.key]
  have h3 : parseLoop (splitInc (lowerStr (displayKey k))) 0 none =
      parseLoop (splitInc k.key) k.modifiers none := by
    rw [h2, parseLoop_append, parseLoop_modPieces k.modifiers hm]
  rw [parse_one_key_reduce, h3]
  rcases hl with h | ⟨hne, hdrop, hmod, _, _⟩
  · rw [h]
    show ({ modifiers := k.modifiers, key := [] } : Key) = k
    cases k with
    | mk m l => simp_all
  · rw [splitInc_good_label k.key hne hdrop]
    show (⟨(parseLoop [k.key] k.modifiers none).1,
      (parseLoop [k.key] k.modifiers none).2.getD []⟩ : Key) = k
    simp only [parseLoop, hmod]
    rfl

theorem parse_one_key_ne_anykey (t : List Char) (hne : t ≠ []) :
    (parse_one_key t).modifiers ≠ 0 ∨ (parse_one_key t).key ≠ [] := by
  by_cases hm : (parse_one_key t).modifiers = 0
  · right
    have hm' : (parseLoop (splitInc (lowerStr t)) 0 none).1 = 0 := by
      rw [parse_one_key_reduce] at hm
      exact hm
    obtain ⟨_, hall⟩ := parseLoop_mods_zero _ 0 none hm'
    have hfil : (splitInc (lowerStr t)).filter (fun p => (modOf p).isNone) =
        splitInc (lowerStr t) := by
      apply List.filter_eq_self.mpr
      intro a ha
      simp [hall a ha]
    have hpne : splitInc (lowerStr t) ≠ [] := by
      rw [ne_eq, splitInc_eq_nil_iff]
      intro hcon
      exact hne (List.map_eq_nil_iff.mp hcon)
    rcases hg : (splitInc (lowerStr t)).getLast? with _ | p
    · exact absurd (List.getLast?_eq_none_iff.mp hg) hpne
    · have hpm : p ∈ splitInc (lowerStr t) := mem_of_getLast?_eq _ p hg
      have hkey : (parse_one_key t).key = p := by
        rw [parse_one_key_reduce]
        show (parseLoop (splitInc (lowerStr t)) 0 none).2.getD [] = p
        rw [parseLoop_thekey, Option.or_none, hfil, hg]
        rfl
      rw [hkey]
      exact splitInc_pieces_ne_nil _ p hpm
  · left
    exact hm

/-! ## Display-level lemmas and the sequence round trip -/

theorem displayKey_noWs (k : Key) (hk : GoodKey k) :
    ∀ c ∈ displayKey k, isWs c = false := by
  intro c hc
  rw [displayKey_eq_flatten] at hc
  rcases List.mem_append.mp hc with h | h
  · exact modPieces_noWs k.modifiers hk.1 c h
  · rcases hk.2 with hl | ⟨_, _, _, _, hws⟩
    · rw [hl] at h
      simp at h
    · exact hws c h

theorem displayKey_ne_nil (k : Key) (hk : GoodKey k)
    (h : k.modifiers ≠ 0 ∨ k.key ≠ []) : displayKey k ≠ [] := by
  rw [displayKey_eq_flatten]
  intro hcon
  obtain ⟨hfl, hkey⟩ := List.append_eq_nil.mp hcon
  rcases h with h | h
  · have := modPieces_flatten_isEmpty k.modifiers hk.1
    rw [hfl] at this
    simp at this
    exact h this
  · exact h hkey

theorem displayKey_nil_anykey (k : Key) (hk : GoodKey k) (h : displayKey k = []) :
    k = anykey := by
  rw [displayKey_eq_flatten] at h
  obtain ⟨hfl, hkey⟩ := List.append_eq_nil.mp h
  have hm := modPieces_flatten_isEmpty k.modifiers hk.1
  rw [hfl] at hm
  simp at hm
  cases k with
  | mk m l =>
      simp only [anykey]
      simp at hm hkey
      simp [hm, hkey]

theorem parse_key_sequence_split (code : List Char) :
    parse_key_sequence code =
      (match (splitWs code).map parse_one_key with
       | [] => ⟨anykey, none⟩
       | [k1] => ⟨k1, none⟩
       | k1 :: k2 :: _ => ⟨k1, some k2⟩) := by
  rcases h : (splitWs code).map parse_one_key with _ | ⟨k1, _ | ⟨k2, tl⟩⟩ <;>
    simp [parse_key_sequence, h]

/-- C3: parsing is stable under display — for every chord-sequence string
`c`, `parse(display(parse(c))) = parse(c)`, although `display(parse(c))`
itself need not equal `c`. -/
theorem parse_display_roundtrip (c : List Char) :
    parse_key_sequence (displayRule (parse_key_sequence c)) = parse_key_sequence c := by
  rcases h : splitWs c with _ | ⟨t1, _ | ⟨t2, rest⟩⟩
  · have hc : parse_key_sequence c = ⟨anykey, none⟩ := by
      rw [parse_key_sequence_split, h]
      rfl
    rw [hc]
    decide
  · obtain ⟨hne1, hws1⟩ := splitWs_tokens c t1 (by rw [h]; simp)
    have hg1 : GoodKey (parse_one_key t1) := parse_one_key_good t1 hws1
    have hc : parse_key_sequence c = ⟨parse_one_key t1, none⟩ := by
      rw [parse_key_sequence_split, h]
      rfl
    rw [hc]
    have hdne : displayKey (parse_one_key t1) ≠ [] :=
      displayKey_ne_nil _ hg1 (parse_one_key_ne_anykey t1 hne1)
    have hnws : ∀ x ∈ displayKey (parse_one_key t1), isWs x = false := displayKey_noWs _ hg1
    have hrule : displayRule ⟨parse_one_key t1, none⟩ =
        displayKey (parse_one_key t1) := by
      show displayKey (parse_one_key t1) ++ [] = _
      simp
    rw [hrule, parse_key_sequence_split, splitWs_of_noWs _ hnws hdne]
    show KeyRule.mk (parse_one_key (displayKey (parse_one_key t1))) none = _
    rw [parse_one_key_roundtrip _ hg1]
  · obtain ⟨hne1, hws1⟩ := splitWs_tokens c t1 (by rw [h]; simp)
    obtain ⟨hne2, hws2⟩ := splitWs_tokens c t2 (by rw [h]; simp)
    have hg1 : GoodKey (parse_one_key t1) := parse_one_key_good t1 hws1
    have hg2 : GoodKey (parse_one_key t2) := parse_one_key_good t2 hws2
    have hc : parse_key_sequence c = ⟨parse_one_key t1, some (parse_one_key t2)⟩ := by
      rw [parse_key_sequence_split, h]
      rfl
    rw [hc]
    have hdne1 : displayKey (parse_one_key t1) ≠ [] :=
      displayKey_ne_nil _ hg1 (parse_one_key_ne_anykey t1 hne1)
    have hdne2 : displayKey (parse_one_key t2) ≠ [] :=
      displayKey_ne_nil _ hg2 (parse_one_key_ne_anykey t2 hne2)
    have hnws1 : ∀ x ∈ displayKey (parse_one_key t1), isWs x = false := displayKey_noWs _ hg1
    have hnws2 : ∀ x ∈ displayKey (parse_one_key t2), isWs x = false := displayKey_noWs _ hg2
    have hrule : displayRule ⟨parse_one_key t1, some (parse_one_key t2)⟩ =
        displayKey (parse_one_key t1) ++ ' ' :: displayKey (parse_one_key t2) := rfl
    rw [hrule, parse_key_sequence_split,
      splitWs_pair _ _ hnws1 hdne1 hnws2 hdne2]
    show KeyRule.mk (parse_one_key (displayKey (parse_one_key t1)))
      (some (parse_one_key (displayKey (parse_one_key t2)))) = _
    rw [parse_one_key_roundtrip _ hg1, parse_one_key_roundtrip _ hg2]

end Codekeys
